import Mathlib

/-!
Verification development for the avrow library (an implementation of the
Apache Avro object container file format).  The definitions below are a
shallow embedding of the relevant source functions:

* `src/src/value.rs`    : `Value`, `Record`, `Value::encode`, `resolve_union`
* `src/src/reader.rs`   : `decode`, `decode_with_resolution`
* `src/src/schema/mod.rs`     : `Variant`, `Variant::validate`
* `src/src/schema/common.rs`  : `Name`, `validate_name`
* `src/src/schema/canonical.rs` : `FP_TABLE`, `CanonicalSchema::rabin64`
* `src/src/codec.rs`    : `decompress_snappy`
* `src/src/util.rs`     : `encode_long`, `decode_bytes`, `decode_string`

Byte streams are modelled as `List Nat` (each element a `u8` value).
Rust's `HashMap`/`IndexMap` values are modelled as association lists;
the register/lookup operations on them translate to `List.lookup`.
All recursive functions over schemas take an explicit fuel parameter:
the schema graph may be cyclic through the `Named` indirection of the
registry, so recursion is not structural in the Rust source either
(the Rust code simply diverges on a malformed cyclic registry).  Fuel
is an embedding artifact: every theorem quantifies over it or picks a
sufficiently large concrete value.
-/

namespace Avrow

/-! ### Zig-zag varint primitives (`integer_encoding` crate as used by `util.rs`)

The `integer_encoding` crate encodes signed integers (`i32`/`i64`, used by
`encode_long`/`write_varint`) by zig-zag mapping followed by base-128
little-endian groups with a continuation bit; unsigned integers (`usize`,
used by `reader.rs` for the map block count) are base-128 encoded without
the zig-zag step.  For all in-range values the bit-twiddling zig-zag
`(n << 1) ^ (n >> 63)` agrees with the arithmetic form used here. -/

def zigzag (i : Int) : Nat :=
  if 0 ≤ i then (2 * i).toNat else (-(2 * i) - 1).toNat

def unzigzag (n : Nat) : Int :=
  if n % 2 = 0 then ((n / 2 : Nat) : Int) else -(((n / 2 : Nat) : Int) + 1)

/-- Base-128 little-endian groups with continuation bit.  The auxiliary
fuel argument makes the recursion structural; `varintEnc` instantiates it
with `n`, which always suffices since `n / 128 < n` for `128 ≤ n`. -/
def varintEncAux : Nat → Nat → List Nat
  | 0, n => [n % 128]
  | f + 1, n => if n < 128 then [n] else (n % 128 + 128) :: varintEncAux f (n / 128)

def varintEnc (n : Nat) : List Nat := varintEncAux n n

def varintDec : List Nat → Option (Nat × List Nat)
  | [] => none
  | b :: rest =>
    if b < 128 then some (b, rest)
    else
      match varintDec rest with
      | some (n, rest') => some ((b - 128) + 128 * n, rest')
      | none => none

/-- Codes `encode_long` from `util.rs` (zig-zag varint of an `i64`). -/
def encodeLong (i : Int) : List Nat := varintEnc (zigzag i)

/-- Codes a signed varint read (`read_varint::<i64>()` / `::<i32>()`). -/
def readLong (s : List Nat) : Option (Int × List Nat) :=
  match varintDec s with
  | some (n, rest) => some (unzigzag n, rest)
  | none => none

/-- Codes an unsigned varint read (`read_varint::<usize>()`), which the
`integer_encoding` crate decodes without the zig-zag step. -/
def readUnsigned (s : List Nat) : Option (Nat × List Nat) := varintDec s

/-! ### Little-endian fixed-width reads and writes (`byteorder` crate) -/

def leBytes : Nat → Nat → List Nat
  | 0, _ => []
  | k + 1, b => b % 256 :: leBytes k (b / 256)

def readLE : Nat → List Nat → Option (Nat × List Nat)
  | 0, s => some (0, s)
  | _ + 1, [] => none
  | k + 1, b :: s =>
    match readLE k s with
    | some (n, rest) => some (b + 256 * n, rest)
    | none => none

/-! ### Names (`schema/common.rs`) -/

/-- Codes `Name` from `schema/common.rs`: a simple name plus an optional
namespace. -/
structure AvroName where
  base : String
  ns : Option String
deriving DecidableEq

/-- Codes `Name::fullname`: namespace-qualified name, where an empty
namespace string acts as a null namespace. -/
def AvroName.fullname (n : AvroName) : String :=
  match n.ns with
  | some s => if s = "" then n.base else s ++ "." ++ n.base
  | none => n.base

/-- Codes `validate_name` from `schema/common.rs` (`true` models `Ok(())`).
The source rejects a name when it contains a dot, starts with an ASCII
digit at index 0, is empty, or when *no* character of it is an ASCII
alphanumeric or underscore (note: the source uses `chars().any(..)`,
not `all`). -/
def validateName (idx : Nat) (name : String) : Bool :=
  let cs := name.toList
  if cs.contains '.'
      || ((match cs with
           | c :: _ => '0' ≤ c && c ≤ '9'
           | [] => false)
          && idx == 0)
      || cs.isEmpty
      || !(cs.any fun a => ('0' ≤ a && a ≤ '9') || ('a' ≤ a && a ≤ 'z')
            || ('A' ≤ a && a ≤ 'Z') || a == '_')
  then false else true

/-! ### The value model (`value.rs`)

`Record` in the source carries a fullname and an `IndexMap` from field
name to `FieldValue`; a `FieldValue` is a `Value` plus a sort-order tag.
The sort order is descriptive metadata only: it is never read by the
encoder, the decoders always produce the default `Ascending`, and it is
not part of this embedding.  `Map` values keep `HashMap<String, Value>`
entries as an association list of UTF-8 key bytes and values; record
field names and enum symbols, which are never byte-serialized, stay
`String`. -/

inductive Value where
  | null
  | int (i : Int)
  | long (i : Int)
  | boolean (b : Bool)
  | float (bits : Nat)
  | double (bits : Nat)
  | record (name : String) (fields : List (String × Value))
  | fixed (bytes : List Nat)
  | map (entries : List (List Nat × Value))
  | bytes (bs : List Nat)
  | str (utf8 : List Nat)
  | union (v : Value)
  | enum (symbol : String)
  | array (items : List Value)
  | byte (b : Nat)

/-! ### The schema model (`schema/mod.rs`)

`Variant` mirrors the source enum.  Record fields keep the `IndexMap`
insertion order as a list of `(key, field type, field default)`; the
field-struct components `order` and `aliases` are dropped because no
function modelled here reads them (the manual `PartialEq for Field`
compares only name and type, and name equals the map key). -/

inductive Variant where
  | vnull
  | vboolean
  | vint
  | vlong
  | vfloat
  | vdouble
  | vbytes
  | vstr
  | record (name : AvroName) (aliases : Option (List String))
      (fields : List (String × Variant × Option Value))
  | fixed (name : AvroName) (size : Nat)
  | enum (name : AvroName) (aliases : Option (List String)) (symbols : List String)
  | map (values : Variant)
  | array (items : Variant)
  | union (variants : List Variant)
  | named (fullname : String)

/-- Codes `Registry` from `schema/parser.rs`: the `fullname → Variant`
lookup table, here an association list with unique keys. -/
def Registry := List (String × Variant)

/-- Codes `Registry::get`. -/
def Registry.get (reg : Registry) (name : String) : Option Variant :=
  match reg with
  | [] => none
  | (k, v) :: rest => if k = name then some v else Registry.get rest name

/-! ### Length-prefixed byte strings (`util.rs`) and UTF-8 validation -/

/-- Codes `encode_long(len)` followed by `encode_raw_bytes` as done for
`Bytes`/`Str` values in `Value::encode`. -/
def encodeBytesVal (bs : List Nat) : List Nat :=
  encodeLong (bs.length : Int) ++ bs

/-- Codes `decode_bytes` from `util.rs`: a zig-zag varint length followed
by that many raw bytes.  A negative length makes `vec![0u8; len as usize]`
attempt an absurd allocation and abort; that abort, and a too-short
stream (`read_exact` hitting EOF), are both modelled as `none`. -/
def decodeBytes (s : List Nat) : Option (List Nat × List Nat) :=
  match readLong s with
  | some (len, rest) =>
    if len < 0 then none
    else if rest.length < len.toNat then none
    else some (rest.take len.toNat, rest.drop len.toNat)
  | none => none

/-- Codes the well-formedness check performed by `str::from_utf8` in
`reader.rs`/`util.rs`: accepts exactly the valid UTF-8 byte sequences
(no surrogates, no overlong forms, code points at most `0x10FFFF`). -/
def isValidUtf8 : List Nat → Bool
  | [] => true
  | b :: rest =>
    if b ≤ 0x7F then isValidUtf8 rest
    else if b < 0xC2 then false
    else if b ≤ 0xDF then
      match rest with
      | c1 :: r => (0x80 ≤ c1 && c1 ≤ 0xBF) && isValidUtf8 r
      | [] => false
    else if b ≤ 0xEF then
      match rest with
      | c1 :: c2 :: r =>
        (if b = 0xE0 then 0xA0 ≤ c1 && c1 ≤ 0xBF
         else if b = 0xED then 0x80 ≤ c1 && c1 ≤ 0x9F
         else 0x80 ≤ c1 && c1 ≤ 0xBF)
          && (0x80 ≤ c2 && c2 ≤ 0xBF) && isValidUtf8 r
      | _ => false
    else if b ≤ 0xF4 then
      match rest with
      | c1 :: c2 :: c3 :: r =>
        (if b = 0xF0 then 0x90 ≤ c1 && c1 ≤ 0xBF
         else if b = 0xF4 then 0x80 ≤ c1 && c1 ≤ 0x8F
         else 0x80 ≤ c1 && c1 ≤ 0xBF)
          && (0x80 ≤ c2 && c2 ≤ 0xBF) && (0x80 ≤ c3 && c3 ≤ 0xBF)
          && isValidUtf8 r
      | _ => false
    else false

/-- Codes `decode_string` from `util.rs`: `decode_bytes` plus the UTF-8
check; the resulting Rust `String` is kept as its byte list. -/
def decodeString (s : List Nat) : Option (List Nat × List Nat) :=
  match decodeBytes s with
  | some (bs, rest) => if isValidUtf8 bs then some (bs, rest) else none
  | none => none

/-! ### Integer-to-float casts used by the promotion rules

`Value::encode` and the resolution decoder cast `i32`/`i64` to `f32`/`f64`
(Rust `as`, which rounds to nearest, ties to even) and widen `f32` to
`f64`.  Floats are carried as their IEEE-754 bit patterns, so the casts
are modelled as bit-pattern computations. -/

/-- Round `m / 2^shift` to nearest, ties to even. -/
def roundNearEven (m shift : Nat) : Nat :=
  if shift = 0 then m
  else
    let q := m >>> shift
    let r := m % (1 <<< shift)
    let half := 1 <<< (shift - 1)
    if half < r || (r = half && q % 2 = 1) then q + 1 else q

/-- IEEE bit pattern (without sign bit) of a positive natural number, for
a format with `mbits` mantissa bits and `ebits` exponent bits.  The
integer ranges reachable from `i32`/`i64` casts never overflow these
formats, so no infinity case is needed here. -/
def natToIEEE (mbits ebits n : Nat) : Nat :=
  let bias := 2 ^ (ebits - 1) - 1
  let k := Nat.log2 n
  if k ≤ mbits then
    ((k + bias) <<< mbits) + (n <<< (mbits - k)) - (1 <<< mbits)
  else
    let q := roundNearEven n (k - mbits)
    if q = 2 ^ (mbits + 1) then (k + 1 + bias) <<< mbits
    else ((k + bias) <<< mbits) + (q - 2 ^ mbits)

/-- Bit pattern of `i as f32` (Rust `as` cast). -/
def f32bitsOfInt (i : Int) : Nat :=
  if i = 0 then 0
  else if 0 < i then natToIEEE 23 8 i.toNat
  else 2 ^ 31 + natToIEEE 23 8 (-i).toNat

/-- Bit pattern of `i as f64` (Rust `as` cast). -/
def f64bitsOfInt (i : Int) : Nat :=
  if i = 0 then 0
  else if 0 < i then natToIEEE 52 11 i.toNat
  else 2 ^ 63 + natToIEEE 52 11 (-i).toNat

/-- Bit pattern of `f as f64` for an `f32` with bit pattern `b`
(exact widening; NaN payloads are shifted into the high mantissa bits,
matching the usual hardware conversion). -/
def f64ofF32bits (b : Nat) : Nat :=
  let sign := b >>> 31
  let e := (b >>> 23) % 256
  let m := b % (2 ^ 23)
  if e = 255 then (sign <<< 63) + (0x7FF <<< 52) + (m <<< 29)
  else if e = 0 then
    if m = 0 then sign <<< 63
    else
      let k := Nat.log2 m
      (sign <<< 63) + ((k + 874) <<< 52) + ((m <<< (52 - k)) - 2 ^ 52)
  else (sign <<< 63) + ((e + 896) <<< 52) + (m <<< 29)

/-! ### Association-list lookups for schema record fields and enum symbols -/

/-- Codes `IndexMap::get` on a record schema's field map. -/
def fieldLookup : List (String × Variant × Option Value) → String → Option (Variant × Option Value)
  | [], _ => none
  | (k, ty, d) :: rest, n => if k = n then some (ty, d) else fieldLookup rest n

/-- Codes `symbols.iter().position(|r| r == sym)`. -/
def symbolPos : List String → String → Option Nat
  | [], _ => none
  | s :: rest, sym =>
    if s = sym then some 0
    else match symbolPos rest sym with
      | some i => some (i + 1)
      | none => none

/-! ### Union branch selection on encode (`resolve_union` in `value.rs`) -/

/-- Outcome of one iteration of the `resolve_union` loop: the branch
matched (yielding the schema the value will be encoded under), the loop
returned an error immediately, or the iteration fell through to the
`_a => {}` arm and the search continues. -/
inductive UnionStep where
  | found (s : Variant)
  | abort
  | skip

def unionStep (reg : Registry) (v : Value) (s : Variant) : UnionStep :=
  match v, s with
  | .null, .vnull => .found .vnull
  | .boolean _, .vboolean => .found .vboolean
  | .int _, .vint => .found .vint
  | .long _, .vlong => .found .vlong
  | .float _, .vfloat => .found .vfloat
  | .double _, .vdouble => .found .vdouble
  | .bytes _, .vbytes => .found .vbytes
  | .str _, .vstr => .found .vstr
  | .map _, .map values => .found (.map values)
  | .array _, .array items => .found (.array items)
  | .fixed _, .fixed n sz => .found (.fixed n sz)
  | .enum _, .enum n al sy => .found (.enum n al sy)
  | .record _ _, .record n al fl => .found (.record n al fl)
  | .array av, .fixed n sz => if av.length = sz then .found (.fixed n sz) else .abort
  | .union _, _ => .abort
  | .record _ _, .named n =>
    (match reg.get n with | some sc => .found sc | none => .abort)
  | .enum _, .named n =>
    (match reg.get n with | some sc => .found sc | none => .abort)
  | .fixed _, .named n =>
    (match reg.get n with | some sc => .found sc | none => .abort)
  | _, _ => .skip

/-- Codes `resolve_union` from `value.rs`: index and schema of the first
branch matching the value's tag; all error returns collapse to `none`. -/
def resolveUnion (reg : Registry) (v : Value) : List Variant → Option (Nat × Variant)
  | [] => none
  | s :: rest =>
    match unionStep reg v s with
    | .found b => some (0, b)
    | .abort => none
    | .skip =>
      match resolveUnion reg v rest with
      | some (i, b) => some (i + 1, b)
      | none => none

/-! ### The binary encoder (`Value::encode` in `value.rs`)

The match arms appear in the source order.  `none` models every
`Err(..)` return (the error kinds are not distinguished here).  Note two
source quirks kept faithfully: a `Named` schema absent from the registry
encodes nothing and succeeds, and the `(Array, Bytes)` serde-adapter arm
writes the length of the *original* list but only the `Byte` elements. -/

mutual

def encode : Nat → Registry → Value → Variant → Option (List Nat)
  | 0, _, _, _ => none
  | f + 1, reg, v, sch =>
    match v, sch with
    | .null, .vnull => some []
    | .boolean b, .vboolean => some [if b then 1 else 0]
    | .int i, .vint => some (encodeLong i)
    | .int i, .vlong => some (encodeLong i)
    | .int i, .vfloat => some (leBytes 4 (f32bitsOfInt i))
    | .int i, .vdouble => some (leBytes 8 (f64bitsOfInt i))
    | .long l, .vlong => some (encodeLong l)
    | .long l, .vfloat => some (leBytes 4 (f32bitsOfInt l))
    | .long l, .vdouble => some (leBytes 8 (f64bitsOfInt l))
    | .float bits, .vfloat => some (leBytes 4 bits)
    | .float bits, .vdouble => some (leBytes 8 (f64ofF32bits bits))
    | .double bits, .vdouble => some (leBytes 8 bits)
    | value, .named name =>
      (match reg.get name with
       | some s => encode f reg value s
       | none => some [])
    | value, .union variants =>
      (match resolveUnion reg value variants with
       | some (idx, s) =>
         (match encode f reg value s with
          | some body => some (encodeLong (idx : Int) ++ body)
          | none => none)
       | none => none)
    | .record _ rfields, .record _ _ sfields => encodeFields f reg rfields sfields
    | .map entries, .map values =>
      (match encodeMapEntries f reg entries values with
       | some body =>
         some (encodeLong (entries.length : Int) ++ body ++ encodeLong 0)
       | none => none)
    | .fixed bs, .fixed _ _ => some bs
    | .str s, .vstr => some (encodeBytesVal s)
    | .str s, .vbytes => some (encodeBytesVal s)
    | .bytes b, .vbytes => some (encodeBytesVal b)
    | .bytes b, .vstr => some (encodeBytesVal b)
    | .bytes b, .fixed _ _ => some b
    | .enum sym, .enum _ _ symbols =>
      (match symbolPos symbols sym with
       | some idx => some (encodeLong (idx : Int))
       | none => none)
    | .array values, .array items =>
      (match encodeElems f reg values items with
       | some body =>
         some (encodeLong (values.length : Int) ++ body ++ encodeLong 0)
       | none => none)
    | .array values, .vbytes =>
      some (encodeLong (values.length : Int) ++
        values.filterMap (fun x => match x with | .byte b => some b | _ => none))
    | _, _ => none

def encodeFields :
    Nat → Registry → List (String × Value) → List (String × Variant × Option Value) →
    Option (List Nat)
  | 0, _, _, _ => none
  | _ + 1, _, [], _ => some []
  | f + 1, reg, (n, v) :: vr, sfields =>
    match fieldLookup sfields n with
    | some (ty, _) =>
      (match encode f reg v ty with
       | some b =>
         (match encodeFields f reg vr sfields with
          | some bs => some (b ++ bs)
          | none => none)
       | none => none)
    | none => encodeFields f reg vr sfields

def encodeElems : Nat → Registry → List Value → Variant → Option (List Nat)
  | 0, _, _, _ => none
  | _ + 1, _, [], _ => some []
  | f + 1, reg, v :: vr, items =>
    match encode f reg v items with
    | some b =>
      (match encodeElems f reg vr items with
       | some bs => some (b ++ bs)
       | none => none)
    | none => none

def encodeMapEntries :
    Nat → Registry → List (List Nat × Value) → Variant → Option (List Nat)
  | 0, _, _, _ => none
  | _ + 1, _, [], _ => some []
  | f + 1, reg, (k, v) :: rest, values =>
    match encode f reg v values with
    | some b =>
      (match encodeMapEntries f reg rest values with
       | some bs => some (encodeLong (k.length : Int) ++ k ++ b ++ bs)
       | none => none)
    | none => none

end

/-! ### The plain decoder (`decode` in `reader.rs`)

The source match has no arm for `Enum` or `Fixed`; those schemas fall
into the catch-all `Err(..)` arm, modelled by `none`.  The map block
count is read with `read_varint::<usize>()`, i.e. *without* the zig-zag
step, unlike every other count in this function. -/

mutual

def decode : Nat → Registry → Variant → List Nat → Option (Value × List Nat)
  | 0, _, _, _ => none
  | f + 1, reg, sch, s =>
    match sch with
    | .vnull => some (.null, s)
    | .vboolean =>
      (match s with
       | 0 :: r => some (.boolean false, r)
       | 1 :: r => some (.boolean true, r)
       | _ => none)
    | .vint =>
      (match readLong s with
       | some (i, r) => some (.int i, r)
       | none => none)
    | .vdouble =>
      (match readLE 8 s with
       | some (b, r) => some (.double b, r)
       | none => none)
    | .vlong =>
      (match readLong s with
       | some (i, r) => some (.long i, r)
       | none => none)
    | .vfloat =>
      (match readLE 4 s with
       | some (b, r) => some (.float b, r)
       | none => none)
    | .vstr =>
      (match decodeString s with
       | some (bs, r) => some (.str bs, r)
       | none => none)
    | .array items =>
      (match readLong s with
       | some (cnt, r) =>
         if cnt = 0 then some (.array [], r)
         else if cnt < 0 then none
         else
           (match decodeElems f reg items cnt.toNat r with
            | some (vs, r') => some (.array vs, r')
            | none => none)
       | none => none)
    | .vbytes =>
      (match decodeBytes s with
       | some (bs, r) => some (.bytes bs, r)
       | none => none)
    | .map values =>
      (match readUnsigned s with
       | some (cnt, r) =>
         (match decodeMapEntries f reg values cnt r with
          | some (es, r') => some (.map es, r')
          | none => none)
       | none => none)
    | .record name _ sfields =>
      (match decodeFields f reg sfields s with
       | some (fs, r) => some (.record name.fullname fs, r)
       | none => none)
    | .union variants =>
      (match readLong s with
       | some (idx, r) =>
         if idx < 0 then none
         else
           (match variants.get? idx.toNat with
            | some sv => decode f reg sv r
            | none => none)
       | none => none)
    | .named n =>
      (match reg.get n with
       | some sv => decode f reg sv s
       | none => none)
    | .enum _ _ _ => none
    | .fixed _ _ => none

def decodeFields :
    Nat → Registry → List (String × Variant × Option Value) → List Nat →
    Option (List (String × Value) × List Nat)
  | 0, _, _, _ => none
  | _ + 1, _, [], s => some ([], s)
  | f + 1, reg, (n, ty, _) :: sr, s =>
    match decode f reg ty s with
    | some (v, r) =>
      (match decodeFields f reg sr r with
       | some (fs, r') => some ((n, v) :: fs, r')
       | none => none)
    | none => none

def decodeElems :
    Nat → Registry → Variant → Nat → List Nat → Option (List Value × List Nat)
  | 0, _, _, _, _ => none
  | _ + 1, _, _, 0, s => some ([], s)
  | f + 1, reg, items, c + 1, s =>
    match decode f reg items s with
    | some (v, r) =>
      (match decodeElems f reg items c r with
       | some (vs, r') => some (v :: vs, r')
       | none => none)
    | none => none

def decodeMapEntries :
    Nat → Registry → Variant → Nat → List Nat →
    Option (List (List Nat × Value) × List Nat)
  | 0, _, _, _, _ => none
  | _ + 1, _, _, 0, s => some ([], s)
  | f + 1, reg, values, c + 1, s =>
    match decodeString s with
    | some (k, r) =>
      (match decode f reg values r with
       | some (v, r') =>
         (match decodeMapEntries f reg values c r' with
          | some (es, r'') => some ((k, v) :: es, r'')
          | none => none)
       | none => none)
    | none => none

end

/-! ### Schema equality (`PartialEq` for `Variant` and friends)

`Variant` derives `PartialEq`, except that `Name` compares by fullname
and `Field` compares only name and type (manual impls in `common.rs`),
and `IndexMap` equality is length plus per-key lookup (order blind).
Fuel is again an artifact of the cyclic-schema possibility. -/

def nameBEq (a b : AvroName) : Bool := a.fullname = b.fullname

mutual

def variantBEq : Nat → Variant → Variant → Bool
  | 0, _, _ => false
  | f + 1, a, b =>
    match a, b with
    | .vnull, .vnull => true
    | .vboolean, .vboolean => true
    | .vint, .vint => true
    | .vlong, .vlong => true
    | .vfloat, .vfloat => true
    | .vdouble, .vdouble => true
    | .vbytes, .vbytes => true
    | .vstr, .vstr => true
    | .record n1 a1 f1, .record n2 a2 f2 =>
      nameBEq n1 n2 && a1 == a2 && f1.length == f2.length && schemaFieldsSub f f1 f2
    | .fixed n1 s1, .fixed n2 s2 => nameBEq n1 n2 && s1 == s2
    | .enum n1 a1 s1, .enum n2 a2 s2 => nameBEq n1 n2 && a1 == a2 && s1 == s2
    | .map v1, .map v2 => variantBEq f v1 v2
    | .array i1, .array i2 => variantBEq f i1 i2
    | .union v1, .union v2 => v1.length == v2.length && variantListBEq f v1 v2
    | .named s1, .named s2 => s1 == s2
    | _, _ => false

def schemaFieldsSub :
    Nat → List (String × Variant × Option Value) → List (String × Variant × Option Value) → Bool
  | 0, _, _ => false
  | _ + 1, [], _ => true
  | f + 1, (k, ty, _) :: rest, other =>
    (match fieldLookup other k with
     | some (ty2, _) => variantBEq f ty ty2
     | none => false)
      && schemaFieldsSub f rest other

def variantListBEq : Nat → List Variant → List Variant → Bool
  | 0, _, _ => false
  | _ + 1, [], [] => true
  | f + 1, x :: xs, y :: ys => variantBEq f x y && variantListBEq f xs ys
  | _ + 1, _, _ => false

end

/-! ### The resolving decoder (`decode_with_resolution` in `reader.rs`)

The outer match is on the `(writer schema, reader schema)` pair, arms in
source order.  Points kept faithfully:

* record resolution iterates the *reader* fields only, so a writer field
  absent from the reader never consumes its bytes from the stream;
* enum resolution indexes the *reader* symbol list with the index read
  from the writer's data (after bound-checking it against the *writer*
  list) instead of searching for the writer's symbol;
* fixed resolution errors only when the fullnames differ *and* the sizes
  differ (`&&` in the source), and then reads `r_size` bytes;
* the map block count here is a zig-zag `i32` read, and map values and
  matched union branches are decoded with the plain `decode`. -/

mutual

def decodeWithResolution :
    Nat → Variant → Variant → Registry → Registry → List Nat →
    Option (Value × List Nat)
  | 0, _, _, _, _, _ => none
  | f + 1, rSchema, wSchema, rReg, wReg, s =>
    match wSchema, rSchema with
    | .vnull, .vnull => some (.null, s)
    | .vboolean, .vboolean =>
      (match s with
       | 0 :: r => some (.boolean false, r)
       | 1 :: r => some (.boolean true, r)
       | _ => none)
    | .vint, .vint =>
      (match readLong s with
       | some (i, r) => some (.int i, r)
       | none => none)
    | .vint, .vlong =>
      (match readLong s with
       | some (i, r) => some (.long i, r)
       | none => none)
    | .vint, .vfloat =>
      (match readLong s with
       | some (i, r) => some (.float (f32bitsOfInt i), r)
       | none => none)
    | .vint, .vdouble =>
      (match readLong s with
       | some (i, r) => some (.double (f64bitsOfInt i), r)
       | none => none)
    | .vlong, .vlong =>
      (match readLong s with
       | some (i, r) => some (.long i, r)
       | none => none)
    | .vlong, .vfloat =>
      (match readLong s with
       | some (i, r) => some (.float (f32bitsOfInt i), r)
       | none => none)
    | .vlong, .vdouble =>
      (match readLong s with
       | some (i, r) => some (.double (f64bitsOfInt i), r)
       | none => none)
    | .vfloat, .vfloat =>
      (match readLE 4 s with
       | some (b, r) => some (.float b, r)
       | none => none)
    | .vdouble, .vdouble =>
      (match readLE 8 s with
       | some (b, r) => some (.double b, r)
       | none => none)
    | .vfloat, .vdouble =>
      (match readLE 4 s with
       | some (b, r) => some (.double (f64ofF32bits b), r)
       | none => none)
    | .vbytes, .vbytes =>
      (match decodeBytes s with
       | some (bs, r) => some (.bytes bs, r)
       | none => none)
    | .vbytes, .vstr =>
      (match decodeString s with
       | some (bs, r) => some (.str bs, r)
       | none => none)
    | .vstr, .vstr =>
      (match decodeString s with
       | some (bs, r) => some (.str bs, r)
       | none => none)
    | .vstr, .vbytes =>
      (match decodeBytes s with
       | some (bs, r) => some (.bytes bs, r)
       | none => none)
    | .array wItems, .array rItems =>
      if variantBEq (f + 1) wItems rItems then
        (match readLong s with
         | some (cnt, r) =>
           if cnt < 0 then none
           else
             (match resElems f rItems wItems rReg wReg cnt.toNat r with
              | some (vs, r') => some (.array vs, r')
              | none => none)
         | none => none)
      else none
    | .record wName _ wFields, .record rName _ rFields =>
      if wName.fullname = rName.fullname then
        (match resRecordFields f rFields wFields rReg wReg s with
         | some (fs, r) => some (.record rName.fullname fs, r)
         | none => none)
      else none
    | .enum wName _ wSymbols, .enum rName _ rSymbols =>
      if wName.fullname = rName.fullname then
        (match readLong s with
         | some (idx, r) =>
           if idx < 0 then none
           else if wSymbols.length ≤ idx.toNat then none
           else
             (match rSymbols.get? idx.toNat with
              | some sym => some (.enum sym, r)
              | none => none)
         | none => none)
      else none
    | .fixed wName wSize, .fixed rName rSize =>
      if wName.fullname ≠ rName.fullname ∧ wSize ≠ rSize then none
      else if s.length < rSize then none
      else some (.fixed (s.take rSize), s.drop rSize)
    | .map wValues, .map rValues =>
      if variantBEq (f + 1) wValues rValues then
        (match readLong s with
         | some (cnt, r) =>
           if cnt < 0 then some (.map [], r)
           else
             (match decodeMapEntries f rReg rValues cnt.toNat r with
              | some (es, r') => some (.map es, r')
              | none => none)
         | none => none)
      else none
    | .union wVariants, .union rVariants =>
      (match readLong s with
       | some (idx, r) =>
         if idx < 0 then none
         else
           (match wVariants.get? idx.toNat with
            | some ws =>
              (match rVariants.find? (fun i => variantBEq (f + 1) i ws) with
               | some rv => decode f rReg rv r
               | none => none)
            | none => none)
       | none => none)
    | wOther, .union rVariants =>
      (match rVariants.find? (fun i => variantBEq (f + 1) i wOther) with
       | some rv => decode f rReg rv s
       | none => none)
    | .union wVariants, rOther =>
      (match readLong s with
       | some (idx, r) =>
         if idx < 0 then none
         else
           (match wVariants.get? idx.toNat with
            | some ws =>
              if variantBEq (f + 1) ws rOther then decode f rReg rOther r
              else none
            | none => none)
       | none => none)
    | _, _ => none

def resRecordFields :
    Nat → List (String × Variant × Option Value) →
    List (String × Variant × Option Value) → Registry → Registry → List Nat →
    Option (List (String × Value) × List Nat)
  | 0, _, _, _, _, _ => none
  | _ + 1, [], _, _, _, s => some ([], s)
  | f + 1, (rn, rty, rdefault) :: rRest, wFields, rReg, wReg, s =>
    match fieldLookup wFields rn with
    | some (wty, _) =>
      (match decodeWithResolution f rty wty rReg wReg s with
       | some (v, r) =>
         if validateName 0 rn then
           (match resRecordFields f rRest wFields rReg wReg r with
            | some (fs, r') => some ((rn, v) :: fs, r')
            | none => none)
         else none
       | none => none)
    | none =>
      (match rdefault with
       | some d =>
         if validateName 0 rn then
           (match resRecordFields f rRest wFields rReg wReg s with
            | some (fs, r') => some ((rn, d) :: fs, r')
            | none => none)
         else none
       | none => none)

def resElems :
    Nat → Variant → Variant → Registry → Registry → Nat → List Nat →
    Option (List Value × List Nat)
  | 0, _, _, _, _, _, _ => none
  | _ + 1, _, _, _, _, 0, s => some ([], s)
  | f + 1, rItems, wItems, rReg, wReg, c + 1, s =>
    match decodeWithResolution f rItems wItems rReg wReg s with
    | some (v, r) =>
      (match resElems f rItems wItems rReg wReg c r with
       | some (vs, r') => some (v :: vs, r')
       | none => none)
    | none => none

end

/-! ### Validation before encoding (`Variant::validate` in `schema/mod.rs`)

`true` models `Ok(())`; all error returns collapse to `false`.  The
match arms appear in source order; note that arrays and maps validate
only their first element and that empty arrays and maps are rejected. -/

mutual

def validate : Nat → Registry → Value → Variant → Bool
  | 0, _, _, _ => false
  | f + 1, reg, v, sch =>
    match v, sch with
    | .null, .vnull => true
    | .boolean _, .vboolean => true
    | .int _, .vint => true
    | .long _, .vlong => true
    | .long _, .vfloat => true
    | .long _, .vdouble => true
    | .int _, .vlong => true
    | .int _, .vfloat => true
    | .int _, .vdouble => true
    | .float _, .vfloat => true
    | .float _, .vdouble => true
    | .double _, .vdouble => true
    | .str _, .vstr => true
    | .str _, .vbytes => true
    | .bytes _, .vstr => true
    | .bytes _, .vbytes => true
    | .fixed bs, .fixed _ size => bs.length == size
    | .bytes bs, .fixed _ size => bs.length == size
    | .record _ rfields, .record _ _ sfields => validateRecFields f reg rfields sfields
    | .map entries, .map values =>
      (match entries with
       | (_, v0) :: _ => validate f reg v0 values
       | [] => false)
    | .enum sym, .enum _ _ symbols => symbols.contains sym
    | .array vs, .array items =>
      (match vs with
       | v0 :: _ => validate f reg v0 items
       | [] => false)
    | v, .named n =>
      (match reg.get n with
       | some sc => validate f reg v sc
       | none => false)
    | v, .union variants => variants.any (fun sc => validate f reg v sc)
    | _, _ => false

def validateRecFields :
    Nat → Registry → List (String × Value) → List (String × Variant × Option Value) → Bool
  | 0, _, _, _ => false
  | _ + 1, _, [], _ => true
  | f + 1, reg, (n, v) :: vr, sfields =>
    (match fieldLookup sfields n with
     | some (ty, _) => validate f reg v ty
     | none => false)
      && validateRecFields f reg vr sfields

end

/-! ### Rabin-64 fingerprint (`schema/canonical.rs`)

Signed `i64` values are carried as their two's-complement bit patterns
(`Nat` below `2^64`); the source's casts between `i64` and `u64` are
bit-pattern preserving, and `EMPTY & -(fp & 1)` is `EMPTY` when the low
bit of `fp` is set and `0` otherwise. -/

def rabinEmpty : Nat := 0xc15d213aa4d7a795

/-- Codes one step of the `FP_TABLE` initialisation loop:
`fp = (fp as u64 >> 1) as i64 ^ (EMPTY & -(fp & 1))`. -/
def rabinTableStep (fp : Nat) : Nat :=
  (fp >>> 1) ^^^ (if fp % 2 = 1 then rabinEmpty else 0)

/-- Codes one entry of `FP_TABLE`: eight applications of the step to the
byte value `i`. -/
def fpTableEntry (i : Nat) : Nat :=
  (List.range 8).foldl (fun fp _ => rabinTableStep fp) i

/-- Codes the 256-entry `FP_TABLE`. -/
def fpTable : List Nat := (List.range 256).map fpTableEntry

/-- Codes `CanonicalSchema::rabin64` over the UTF-8 bytes of the
canonical form: `idx = (fp ^ b) & 0xff; fp = (fp as u64 >> 8) ^ T[idx]`,
starting from `EMPTY`. -/
def rabin64 (buf : List Nat) : Nat :=
  buf.foldl (fun fp b => (fp >>> 8) ^^^ (fpTable.getD ((fp ^^^ b) % 256) 0)) rabinEmpty

/-- UTF-8 bytes of an ASCII string (all canonical forms used in the
claims are ASCII, where the UTF-8 bytes are the character codes). -/
def strBytes (s : String) : List Nat := s.data.map Char.toNat

/-- Canonical form of the schema `"null"`: `normalize_schema` maps the
JSON string `"null"` to itself (the `a @ JsonValue::String(_)` arm), and
`serde_json`'s `to_string` of a JSON string renders it quoted. -/
def canonicalNullText : String := "\"null\""

/-! ### Snappy block decoding (`decompress_snappy` in `codec.rs`)

The snappy decompressor itself is the external `snap` crate; it enters
the model as a parameter `dec` (mapping the compressed bytes to the
decompressed block, or `none` on a snappy-level failure).  The CRC-32
(IEEE) over the decompressed block is the `crc` crate's
`crc32::checksum_ieee`: the reflected polynomial `0xEDB88320` with
initial value and final xor `0xFFFFFFFF`. -/

def crc32Update (crc b : Nat) : Nat :=
  (List.range 8).foldl
    (fun c _ => (c >>> 1) ^^^ (if c % 2 = 1 then 0xEDB88320 else 0))
    (crc ^^^ b)

def crc32 (bytes : List Nat) : Nat :=
  (bytes.foldl crc32Update 0xFFFFFFFF) ^^^ 0xFFFFFFFF

/-- Big-endian `u32` read (`byteorder::BigEndian::read_u32`). -/
def be32 : List Nat → Nat
  | b0 :: b1 :: b2 :: b3 :: _ => ((b0 * 256 + b1) * 256 + b2) * 256 + b3
  | _ => 0

inductive SnappyErr where
  | decodeFailed
  | crcMismatch (found expected : Nat)

/-- Codes `decompress_snappy` from `codec.rs`: split the trailing four
checksum bytes off, decompress the remainder, and compare the CRC-32 of
the decompressed block with the trailing big-endian value.  A payload
shorter than four bytes makes the source's slice `[..len - 4]` panic,
modelled as `decodeFailed`. -/
def decompressSnappy (dec : List Nat → Option (List Nat)) (buf : List Nat) :
    Except SnappyErr (List Nat) :=
  if buf.length < 4 then .error .decodeFailed
  else
    match dec (buf.take (buf.length - 4)) with
    | none => .error .decodeFailed
    | some unc =>
      let expected := be32 (buf.drop (buf.length - 4))
      let found := crc32 unc
      if expected ≠ found then .error (.crcMismatch found expected)
      else .ok unc

/-! ### Exact value/schema agreement

`exactMatch` singles out the value/schema pairs for which the amended
round-trip claim is stated: the value carries exactly the tag the schema
prescribes (no promotion), strings are valid UTF-8, byte payloads are
`u8`-ranged, record values list exactly the schema's fields, in the
schema's order, with the pairwise-distinct names the `IndexMap` keys
have by construction, and union values enter through a matching branch.
Enum, Fixed, Array and Map schemas are excluded: the plain decoder has
no arm for Enum and Fixed, and Array/Map block framing is asymmetric
(see the theorems for C10). -/

mutual

def exactMatch : Nat → Registry → Value → Variant → Bool
  | 0, _, _, _ => false
  | f + 1, reg, v, sch =>
    match v, sch with
    | .null, .vnull => true
    | .boolean _, .vboolean => true
    | .int _, .vint => true
    | .long _, .vlong => true
    | .float bits, .vfloat => decide (bits < 2 ^ 32)
    | .double bits, .vdouble => decide (bits < 2 ^ 64)
    | .bytes bs, .vbytes => bs.all (fun b => decide (b < 256))
    | .str s, .vstr => isValidUtf8 s
    | .record rname rfields, .record sname _ sfields =>
      (rname == sname.fullname) && exactFields f reg rfields sfields
    | v, .union vars =>
      (match resolveUnion reg v vars with
       | some (_, branch) => exactMatch f reg v branch
       | none => false)
    | v, .named n =>
      (match reg.get n with
       | some sc => exactMatch f reg v sc
       | none => false)
    | _, _ => false

def exactFields :
    Nat → Registry → List (String × Value) → List (String × Variant × Option Value) → Bool
  | 0, _, _, _ => false
  | _ + 1, _, [], [] => true
  | f + 1, reg, (n, v) :: vr, (sn, ty, _) :: sr =>
    (n == sn) && vr.all (fun q => !(q.1 == n))
      && exactMatch f reg v ty && exactFields f reg vr sr
  | _ + 1, _, _, _ => false

end

/-- Elementwise exact agreement for array items (used for the C10
statement about top-level array datums). -/
def exactElems : Nat → Registry → List Value → Variant → Bool
  | 0, _, _, _ => false
  | _ + 1, _, [], _ => true
  | f + 1, reg, v :: vr, items => exactMatch f reg v items && exactElems f reg vr items

/-! ### Concrete schemas and values used by the claim theorems -/

/-- The recursive `LongList`-style record schema (a long field plus a
nullable self-reference through the registry). -/
def llSch : Variant :=
  .record ⟨"LL", none⟩ none
    [("value", .vlong, none), ("next", .union [.vnull, .named "LL"], none)]

def llReg : Registry := [("LL", llSch)]

def llVal : Value :=
  .record "LL" [("value", .long 1),
    ("next", .record "LL" [("value", .long 2), ("next", .null)])]

/-- Record schema with an int field `a` followed by a string field `b`. -/
def c2Schema : Variant :=
  .record ⟨"R", none⟩ none [("a", .vint, none), ("b", .vstr, none)]

/-- Writer record schema with two int fields. -/
def c3Writer : Variant :=
  .record ⟨"R", none⟩ none [("a", .vint, none), ("b", .vint, none)]

/-- Reader record schema lacking the writer's field `b`. -/
def c3Reader : Variant := .record ⟨"R", none⟩ none [("a", .vint, none)]

def c4Writer : Variant := .enum ⟨"E", none⟩ none ["A", "B"]

def c4Reader : Variant := .enum ⟨"E", none⟩ none ["B", "A"]

/-- Modelled from the spec: the simple-name grammar
`[A-Za-z_][A-Za-z0-9_]*` that the specification states `validate_name`
implements.  This is the claim-side comparison definition; the
code-side definition is `validateName` above. -/
def specSimpleName (s : String) : Bool :=
  match s.toList with
  | [] => false
  | c :: cs =>
    (('a' ≤ c && c ≤ 'z') || ('A' ≤ c && c ≤ 'Z') || c == '_')
      && cs.all (fun a =>
        ('a' ≤ a && a ≤ 'z') || ('A' ≤ a && a ≤ 'Z') || ('0' ≤ a && a ≤ '9') || a == '_')

/-! ### Properties of the byte-level primitives -/

theorem unzigzag_zigzag (i : Int) : unzigzag (zigzag i) = i := by
  unfold zigzag unzigzag
  by_cases h : 0 ≤ i
  · simp only [h, if_pos]
    omega
  · simp only [h, if_neg, if_false]
    omega

theorem varintDec_encAux (f n : Nat) (hf : n ≤ f) (rest : List Nat) :
    varintDec (varintEncAux f n ++ rest) = some (n, rest) := by
  induction f generalizing n with
  | zero =>
    interval_cases n
    simp [varintEncAux, varintDec]
  | succ f ih =>
    by_cases h : n < 128
    · simp [varintEncAux, varintDec, h]
    · have h1 : n / 128 ≤ f := by omega
      simp only [varintEncAux, if_neg h, List.cons_append]
      have h2 : ¬ (n % 128 + 128 < 128) := by omega
      simp only [varintDec, if_neg h2, ih (n / 128) h1]
      have h3 : n % 128 + 128 - 128 + 128 * (n / 128) = n := by omega
      rw [h3]

theorem varintDec_enc (n : Nat) (rest : List Nat) :
    varintDec (varintEnc n ++ rest) = some (n, rest) :=
  varintDec_encAux n n (Nat.le_refl n) rest

theorem readLong_encodeLong (i : Int) (rest : List Nat) :
    readLong (encodeLong i ++ rest) = some (i, rest) := by
  simp [readLong, encodeLong, varintDec_enc, unzigzag_zigzag]

theorem readLE_leBytes (k b : Nat) (rest : List Nat) :
    readLE k (leBytes k b ++ rest) = some (b % 256 ^ k, rest) := by
  induction k generalizing b with
  | zero => simp [leBytes, readLE, Nat.mod_one]
  | succ k ih =>
    simp only [leBytes, List.cons_append, readLE, List.append_eq]
    rw [ih (b / 256)]
    have h : b % 256 ^ (k + 1) = b % 256 + 256 * (b / 256 % 256 ^ k) := by
      rw [pow_succ', Nat.mod_mul]
    rw [h]

theorem decodeBytes_enc (bs : List Nat) (rest : List Nat) :
    decodeBytes (encodeBytesVal bs ++ rest) = some (bs, rest) := by
  unfold decodeBytes encodeBytesVal
  rw [List.append_assoc, readLong_encodeLong]
  simp

/-! ### Round-trip lemmas

`unionStep_found` and `resolveUnion_some` relate the branch chosen by
`resolve_union` to the entry of the union's branch list at the returned
index (the entry itself, or a `Named` reference resolving to it).
`encodeFields_skip_head` discharges the head of the schema field list
when no remaining value field reuses its name (the `IndexMap` keys are
unique).  `roundTripAux` is the main induction: an exactly-matching
value encodes successfully, and decoding those bytes (with any decoder
fuel at least twice the encoder fuel) returns the value and leaves the
rest of the stream untouched. -/

theorem unionStep_found {reg : Registry} {v : Value} {s b : Variant}
    (h : unionStep reg v s = .found b) :
    b = s ∨ ∃ n, s = .named n ∧ reg.get n = some b := by
  unfold unionStep at h
  split at h <;>
    first
      | (cases h; exact Or.inl rfl)
      | cases h
      | (split at h
         · cases h; exact Or.inl rfl
         · cases h)
      | (split at h
         · cases h; exact Or.inr ⟨_, rfl, by assumption⟩
         · cases h)

theorem resolveUnion_some {reg : Registry} {v : Value} :
    ∀ {l : List Variant} {i : Nat} {b : Variant},
      resolveUnion reg v l = some (i, b) →
      ∃ u, l.get? i = some u ∧
        (b = u ∨ ∃ n, u = .named n ∧ reg.get n = some b) := by
  intro l
  induction l with
  | nil => intro i b h; simp [resolveUnion] at h
  | cons s rest ih =>
    intro i b h
    unfold resolveUnion at h
    cases hstep : unionStep reg v s with
    | found c =>
      rw [hstep] at h
      cases h
      exact ⟨s, rfl, unionStep_found hstep⟩
    | abort => rw [hstep] at h; cases h
    | skip =>
      rw [hstep] at h
      cases hrec : resolveUnion reg v rest with
      | none => rw [hrec] at h; cases h
      | some p =>
        obtain ⟨i', b'⟩ := p
        rw [hrec] at h
        cases h
        obtain ⟨u, hu, hub⟩ := ih hrec
        exact ⟨u, by simpa using hu, hub⟩

theorem encodeFields_skip_head (f : Nat) (reg : Registry) (vr : List (String × Value))
    (sn : String) (ty : Variant) (d : Option Value)
    (sr : List (String × Variant × Option Value))
    (hn : vr.all (fun q => !(q.1 == sn)) = true) :
    encodeFields f reg vr ((sn, ty, d) :: sr) = encodeFields f reg vr sr := by
  induction f generalizing vr with
  | zero => rfl
  | succ f ih =>
    cases vr with
    | nil => rfl
    | cons p rest =>
      obtain ⟨n, v⟩ := p
      simp only [List.all_cons, Bool.and_eq_true, Bool.not_eq_true'] at hn
      obtain ⟨hne, hrest⟩ := hn
      have hne' : ¬ (sn = n) := by
        intro hh
        rw [hh] at hne
        simp at hne
      simp only [encodeFields, fieldLookup, if_neg hne']
      rw [ih rest (by simpa using hrest)]

theorem roundTripAux : ∀ f : Nat,
    (∀ reg v sch, exactMatch f reg v sch = true →
      ∃ b, encode f reg v sch = some b ∧
        ∀ rest g, 2 * f ≤ g → decode g reg sch (b ++ rest) = some (v, rest)) ∧
    (∀ reg vf sf, exactFields f reg vf sf = true →
      ∃ b, encodeFields f reg vf sf = some b ∧
        ∀ rest g, 2 * f ≤ g → decodeFields g reg sf (b ++ rest) = some (vf, rest)) := by
  intro f
  induction f with
  | zero =>
    constructor
    · intro reg v sch hm; simp [exactMatch] at hm
    · intro reg vf sf hm; simp [exactFields] at hm
  | succ f ih =>
    obtain ⟨ihP, ihQ⟩ := ih
    constructor
    · intro reg v sch hm
      match sch with
      | .vnull =>
        cases v <;> simp [exactMatch] at hm
        refine ⟨[], by simp [encode], ?_⟩
        intro rest g hg
        obtain ⟨g', rfl⟩ : ∃ g', g = g' + 1 := ⟨g - 1, by omega⟩
        simp [decode]
      | .vboolean =>
        cases v <;> simp [exactMatch] at hm
        rename_i b
        refine ⟨[if b then 1 else 0], by simp [encode], ?_⟩
        intro rest g hg
        obtain ⟨g', rfl⟩ : ∃ g', g = g' + 1 := ⟨g - 1, by omega⟩
        cases b <;> simp [decode]
      | .vint =>
        cases v <;> simp [exactMatch] at hm
        rename_i i
        refine ⟨encodeLong i, by simp [encode], ?_⟩
        intro rest g hg
        obtain ⟨g', rfl⟩ : ∃ g', g = g' + 1 := ⟨g - 1, by omega⟩
        simp [decode, readLong_encodeLong]
      | .vlong =>
        cases v <;> simp [exactMatch] at hm
        rename_i i
        refine ⟨encodeLong i, by simp [encode], ?_⟩
        intro rest g hg
        obtain ⟨g', rfl⟩ : ∃ g', g = g' + 1 := ⟨g - 1, by omega⟩
        simp [decode, readLong_encodeLong]
      | .vfloat =>
        cases v <;> simp [exactMatch] at hm
        rename_i bits
        refine ⟨leBytes 4 bits, by simp [encode], ?_⟩
        intro rest g hg
        obtain ⟨g', rfl⟩ : ∃ g', g = g' + 1 := ⟨g - 1, by omega⟩
        have h4 : bits % 256 ^ 4 = bits := Nat.mod_eq_of_lt (by norm_num; omega)
        simp [decode, readLE_leBytes, h4]
        omega
      | .vdouble =>
        cases v <;> simp [exactMatch] at hm
        rename_i bits
        refine ⟨leBytes 8 bits, by simp [encode], ?_⟩
        intro rest g hg
        obtain ⟨g', rfl⟩ : ∃ g', g = g' + 1 := ⟨g - 1, by omega⟩
        have h8 : bits % 256 ^ 8 = bits := Nat.mod_eq_of_lt (by norm_num; omega)
        simp [decode, readLE_leBytes, h8]
        omega
      | .vbytes =>
        cases v <;> simp [exactMatch] at hm
        rename_i bs
        refine ⟨encodeBytesVal bs, by simp [encode], ?_⟩
        intro rest g hg
        obtain ⟨g', rfl⟩ : ∃ g', g = g' + 1 := ⟨g - 1, by omega⟩
        simp [decode, decodeBytes_enc]
      | .vstr =>
        cases v <;> simp [exactMatch] at hm
        rename_i s
        refine ⟨encodeBytesVal s, by simp [encode], ?_⟩
        intro rest g hg
        obtain ⟨g', rfl⟩ : ∃ g', g = g' + 1 := ⟨g - 1, by omega⟩
        simp [decode, decodeString, decodeBytes_enc, hm]
      | .record sname al sfields =>
        cases v <;> simp [exactMatch] at hm
        rename_i rname rfields
        obtain ⟨hname, hfields⟩ := hm
        obtain ⟨b, hb, hdec⟩ := ihQ reg rfields sfields hfields
        refine ⟨b, by simp [encode, hb], ?_⟩
        intro rest g hg
        obtain ⟨g', rfl⟩ : ∃ g', g = g' + 1 := ⟨g - 1, by omega⟩
        have hd := hdec rest g' (by omega)
        simp [decode, hd, hname]
      | .union vars =>
        simp only [exactMatch] at hm
        cases hr : resolveUnion reg v vars with
        | none => rw [hr] at hm; cases hm
        | some p =>
          obtain ⟨idx, branch⟩ := p
          rw [hr] at hm
          obtain ⟨body, hbody, hdec⟩ := ihP reg v branch hm
          refine ⟨encodeLong (idx : Int) ++ body, by simp [encode, hr, hbody], ?_⟩
          intro rest g hg
          obtain ⟨g', rfl⟩ : ∃ g', g = g' + 1 := ⟨g - 1, by omega⟩
          obtain ⟨u, hu, hcase⟩ := resolveUnion_some hr
          rw [List.append_assoc]
          simp only [decode, readLong_encodeLong]
          rw [if_neg (by omega)]
          simp only [Int.toNat_natCast, hu]
          rcases hcase with rfl | ⟨n, rfl, hget⟩
          · exact hdec rest g' (by omega)
          · obtain ⟨g'', rfl⟩ : ∃ g'', g' = g'' + 1 := ⟨g' - 1, by omega⟩
            simp only [decode, hget]
            exact hdec rest g'' (by omega)
      | .named n =>
        simp only [exactMatch] at hm
        cases hget : reg.get n with
        | none => rw [hget] at hm; cases hm
        | some sc =>
          rw [hget] at hm
          obtain ⟨b, hb, hdec⟩ := ihP reg v sc hm
          refine ⟨b, by simp [encode, hget, hb], ?_⟩
          intro rest g hg
          obtain ⟨g', rfl⟩ : ∃ g', g = g' + 1 := ⟨g - 1, by omega⟩
          simp only [decode, hget]
          exact hdec rest g' (by omega)
      | .enum en al sy => cases v <;> simp [exactMatch] at hm
      | .fixed fn fs => cases v <;> simp [exactMatch] at hm
      | .array items => cases v <;> simp [exactMatch] at hm
      | .map mvals => cases v <;> simp [exactMatch] at hm
    · intro reg vf sf hm
      match vf, sf with
      | [], [] =>
        refine ⟨[], by simp [encodeFields], ?_⟩
        intro rest g hg
        obtain ⟨g', rfl⟩ : ∃ g', g = g' + 1 := ⟨g - 1, by omega⟩
        simp [decodeFields]
      | [], _ :: _ => simp [exactFields] at hm
      | _ :: _, [] => simp [exactFields] at hm
      | (n, v) :: vr, (sn, ty, d) :: sr =>
        simp only [exactFields, Bool.and_eq_true, beq_iff_eq] at hm
        obtain ⟨⟨⟨hn, hnodup⟩, hty⟩, hrest⟩ := hm
        obtain ⟨b1, hb1, hd1⟩ := ihP reg v ty hty
        obtain ⟨b2, hb2, hd2⟩ := ihQ reg vr sr hrest
        have hfl : fieldLookup ((sn, ty, d) :: sr) n = some (ty, d) := by
          rw [hn]; simp [fieldLookup]
        have hnodup' : vr.all (fun q => !(q.1 == sn)) = true := hn ▸ hnodup
        have hskip := encodeFields_skip_head f reg vr sn ty d sr hnodup'
        refine ⟨b1 ++ b2, ?_, ?_⟩
        · simp only [encodeFields, hfl, hb1]
          rw [hskip, hb2]
        · intro rest g hg
          obtain ⟨g', rfl⟩ : ∃ g', g = g' + 1 := ⟨g - 1, by omega⟩
          have hdd1 := hd1 (b2 ++ rest) g' (by omega)
          have hdd2 := hd2 rest g' (by omega)
          simp only [decodeFields, List.append_assoc, hdd1, hdd2, hn]

/-! ### Elementwise round trip for array items (used for C10) -/

theorem elemsRoundTrip : ∀ (f : Nat) (reg : Registry) (items : Variant) (vs : List Value),
    exactElems f reg vs items = true →
    ∃ b, encodeElems f reg vs items = some b ∧
      ∀ rest g, 2 * f ≤ g →
        decodeElems g reg items vs.length (b ++ rest) = some (vs, rest) := by
  intro f
  induction f with
  | zero => intro reg items vs hm; simp [exactElems] at hm
  | succ f ih =>
    intro reg items vs hm
    cases vs with
    | nil =>
      refine ⟨[], by simp [encodeElems], ?_⟩
      intro rest g hg
      obtain ⟨g', rfl⟩ : ∃ g', g = g' + 1 := ⟨g - 1, by omega⟩
      simp [decodeElems]
    | cons v vr =>
      simp only [exactElems, Bool.and_eq_true] at hm
      obtain ⟨hv, hvr⟩ := hm
      obtain ⟨b1, hb1, hd1⟩ := (roundTripAux f).1 reg v items hv
      obtain ⟨b2, hb2, hd2⟩ := ih reg items vr hvr
      refine ⟨b1 ++ b2, by simp [encodeElems, hb1, hb2], ?_⟩
      intro rest g hg
      obtain ⟨g', rfl⟩ : ∃ g', g = g' + 1 := ⟨g - 1, by omega⟩
      have hdd1 := hd1 (b2 ++ rest) g' (by omega)
      have hdd2 := hd2 rest g' (by omega)
      simp only [List.length_cons, decodeElems, List.append_assoc, hdd1, hdd2]

/-! ### Claim theorems -/

/-- C1, counterexample: the round-trip claim fails as stated.  The value
`Int 1` validates under the schema `"long"` (promotion), its encoding is
the single byte `0x02`, but decoding that byte under `"long"` yields
`Long 1`, which is a different `Value` than `Int 1` (and this is neither
a map-iteration-order nor a defaulted-field difference). -/
theorem c1_promotion_not_roundtrip :
    validate 1 [] (Value.int 1) Variant.vlong = true ∧
    encode 1 [] (Value.int 1) Variant.vlong = some [2] ∧
    decode 1 [] Variant.vlong [2] = some (Value.long 1, []) ∧
    Value.long 1 ≠ Value.int 1 :=
  ⟨by rfl, by rfl, by rfl, by simp⟩

/-- C1 (amended): for every schema over the fragment null / boolean /
int / long / float / double / bytes / string / record / union / named
(with the schema's registry) and every value that matches it exactly —
the value's tag is the one the schema prescribes (no promotion), strings
are valid UTF-8, record values carry exactly the schema's fields in
schema order — decoding the encoding of the value yields the value again
and consumes exactly its bytes, for any decoder fuel at least twice the
encoder fuel. -/
theorem c1_roundtrip_exact (f : Nat) (reg : Registry) (v : Value) (sch : Variant)
    (hm : exactMatch f reg v sch = true) :
    ∃ b, encode f reg v sch = some b ∧
      ∀ rest g, 2 * f ≤ g → decode g reg sch (b ++ rest) = some (v, rest) :=
  (roundTripAux f).1 reg v sch hm

/-- C1 witness: the round trip at a two-deep recursive `LongList` value
under its registry. -/
theorem c1_roundtrip_exact_witness :
    ∃ b, encode 12 llReg llVal llSch = some b ∧
      ∀ rest g, 2 * 12 ≤ g → decode g llReg llSch (b ++ rest) = some (llVal, rest) :=
  c1_roundtrip_exact 12 llReg llVal llSch (by decide)

/-- C2: the encoder emits record fields in the *value's insertion
order*, not in schema-declared order.  The same field set inserted as
`b, a` encodes as `str-b ++ int-a = [2, 120, 2]`, while inserted as
`a, b` it encodes as `int-a ++ str-b = [2, 2, 120]`: the output depends
on insertion order, contradicting the claim. -/
theorem c2_record_encode_insertion_order :
    encode 5 [] (.record "R" [("b", .str [120]), ("a", .int 1)]) c2Schema =
      some [2, 120, 2] ∧
    encode 5 [] (.record "R" [("a", .int 1), ("b", .str [120])]) c2Schema =
      some [2, 2, 120] ∧
    ([2, 120, 2] : List Nat) ≠ [2, 2, 120] :=
  ⟨by decide, by decide, by decide⟩

/-- C3: resolving the two-int-field writer record `{a = 1, b = 2}`
(encoded as `[2, 4]`) against a reader record that lacks `b` returns the
record `{a = 1}` but leaves `b`'s byte `[4]` *unconsumed* in the stream,
contradicting the claim that writer-only fields' bytes are read and
discarded. -/
theorem c3_writer_only_field_bytes_not_consumed :
    encode 5 [] (.record "R" [("a", .int 1), ("b", .int 2)]) c3Writer = some [2, 4] ∧
    decodeWithResolution 5 c3Reader c3Writer [] [] [2, 4] =
      some (.record "R" [("a", .int 1)], [4]) ∧
    ([4] : List Nat) ≠ [] :=
  ⟨by decide, by rfl, by decide⟩

/-- C4: with writer enum symbols `[A, B]` and reader symbols `[B, A]`,
the datum `A` (writer index 0, encoded `[0]`) resolves to `Enum "B"` —
the *reader's symbol at the writer's index* — although the reader does
contain the writer's symbol `A`, which the claim says should be
produced. -/
theorem c4_enum_resolution_reader_symbol_at_writer_index :
    encode 2 [] (.enum "A") c4Writer = some [0] ∧
    ["B", "A"].contains "A" = true ∧
    decodeWithResolution 5 c4Reader c4Writer [] [] [0] = some (.enum "B", []) ∧
    Value.enum "B" ≠ Value.enum "A" :=
  ⟨by rfl, by rfl, by rfl, by simp⟩

/-- C5: resolving a writer `Fixed("a", 2)` against a reader
`Fixed("b", 2)` *succeeds* (the source requires fullnames to differ
*and* sizes to differ before failing), although the fullnames differ
and the claim says resolution must fail. -/
theorem c5_fixed_resolution_name_mismatch_accepted :
    AvroName.fullname ⟨"a", none⟩ ≠ AvroName.fullname ⟨"b", none⟩ ∧
    decodeWithResolution 5 (.fixed ⟨"b", none⟩ 2) (.fixed ⟨"a", none⟩ 2) [] [] [9, 9] =
      some (.fixed [9, 9], []) :=
  ⟨by decide, by rfl⟩

/-- C6: `validate_name` accepts `"a-b"`, which contains `-`, a character
outside `A-Za-z0-9_`; the spec's regular expression rejects it.  The
source tests `chars().any(is alphanumeric or underscore)` where the
grammar requires `all`. -/
theorem c6_validate_name_accepts_dash :
    validateName 0 "a-b" = true ∧ specSimpleName "a-b" = false :=
  ⟨by rfl, by rfl⟩

/-- C7: the Rabin-64 fingerprint of the canonical form of the schema
`"null"` (the six bytes `"null"` with quotes), computed with seed
`0xc15d213aa4d7a795`, the 256-entry table and the per-byte update
`idx = (fp ^ b) & 0xff; fp = (fp >>> 8) ^ T[idx]`, equals
`0x63dd24e7cc258f8a`. -/
theorem c7_rabin_null_fingerprint :
    rabin64 (strBytes canonicalNullText) = 0x63dd24e7cc258f8a := by decide

/-- C8: snappy block decoding splits the trailing four bytes off,
decompresses the remainder (`dec` stands for the external snappy
decompressor), and compares the CRC-32 (IEEE) of the decompressed bytes
with the trailing big-endian value: on mismatch the block is rejected
with a CRC-mismatch error carrying exactly those two checksums, and on
match decoding succeeds with the decompressed block. -/
theorem c8_snappy_crc_check (dec : List Nat → Option (List Nat)) (buf unc : List Nat)
    (hlen : 4 ≤ buf.length) (hdec : dec (buf.take (buf.length - 4)) = some unc) :
    (crc32 unc ≠ be32 (buf.drop (buf.length - 4)) →
      decompressSnappy dec buf =
        .error (.crcMismatch (crc32 unc) (be32 (buf.drop (buf.length - 4))))) ∧
    (crc32 unc = be32 (buf.drop (buf.length - 4)) →
      decompressSnappy dec buf = .ok unc) := by
  constructor <;> intro h <;>
    simp only [decompressSnappy, if_neg (show ¬ buf.length < 4 by omega), hdec]
  · rw [if_pos (Ne.symm h)]
  · rw [if_neg (by omega)]

/-- C8 witness: a decompressor returning the empty block (CRC 0) against
trailing checksums 1 (rejected with the mismatch error) and 0
(accepted). -/
theorem c8_snappy_crc_check_witness :
    decompressSnappy (fun _ => some []) [0, 0, 0, 1] = .error (.crcMismatch 0 1) ∧
    decompressSnappy (fun _ => some []) [0, 0, 0, 0] = .ok [] :=
  ⟨(c8_snappy_crc_check (fun _ => some []) [0, 0, 0, 1] [] (by decide) (by rfl)).1 (by decide),
   (c8_snappy_crc_check (fun _ => some []) [0, 0, 0, 0] [] (by decide) (by rfl)).2 (by decide)⟩

/-- C9: validating a non-empty array against an array schema validates
only the first element, and a non-empty map only its first-inspected
value — the result never depends on the remaining elements.
Concretely, `[Int 1, Str ..]` validates against `array<int>` although
its second element does not validate against `int`. -/
theorem c9_validate_first_element_only :
    (∀ (f : Nat) (reg : Registry) (v : Value) (vs : List Value) (items : Variant),
      validate (f + 1) reg (.array (v :: vs)) (.array items) = validate f reg v items) ∧
    (∀ (f : Nat) (reg : Registry) (k : List Nat) (v : Value)
        (kvs : List (List Nat × Value)) (values : Variant),
      validate (f + 1) reg (.map ((k, v) :: kvs)) (.map values) = validate f reg v values) ∧
    validate 2 [] (.array [.int 1, .str [200]]) (.array .vint) = true ∧
    validate 2 [] (.str [200]) .vint = false :=
  ⟨fun _ _ _ _ _ => rfl, fun _ _ _ _ _ _ => rfl, by rfl, by rfl⟩

/-- C10, counterexample for the map half: the encoder writes the map
count zig-zagged (`{"a": 1}` encodes as `[2, 2, 97, 2, 0]`, count byte
`0x02`), but the decoder reads the count with an *unsigned* varint
(`read_varint::<usize>()`), obtaining 2 instead of 1: decoding the
single-entry map datum fails outright, so no "one unread zero varint"
situation arises for maps. -/
theorem c10_map_count_misread :
    encode 3 [] (Value.map [([97], Value.int 1)]) (Variant.map .vint) =
      some [2, 2, 97, 2, 0] ∧
    decode 9 [] (Variant.map .vint) [2, 2, 97, 2, 0] = none ∧
    readUnsigned [2] = some (2, []) ∧ readLong [2] = some (1, []) :=
  ⟨by rfl, by rfl, by rfl, by rfl⟩

/-- C10 (amended): for arrays the claim holds — encoding a non-empty
array writes one positive-count block, the items, and a zero-count
terminator, and decoding consumes only the count and the items, leaving
the zero byte unread; hence of two consecutive array datums the second
decodes as the empty array read off the first datum's terminator.  For
maps, the count is written zig-zagged but read unsigned (see
`c10_map_count_misread`), so a non-empty map datum fails to decode at
all. -/
theorem c10_array_terminator_unconsumed :
    (∀ (f : Nat) (reg : Registry) (items : Variant) (v : Value) (vs : List Value)
        (rest : List Nat),
      exactElems f reg (v :: vs) items = true →
      ∃ body,
        encode (f + 1) reg (.array (v :: vs)) (.array items) =
          some (encodeLong (((v :: vs).length : Nat) : Int) ++ body ++ [0]) ∧
        ∀ g, 2 * f + 2 ≤ g →
          decode g reg (.array items)
              ((encodeLong (((v :: vs).length : Nat) : Int) ++ body ++ [0]) ++ rest) =
            some (.array (v :: vs), 0 :: rest)) ∧
    (encode 3 [] (.array [.int 1]) (.array .vint) = some [2, 2, 0] ∧
     encode 3 [] (.array [.int 2]) (.array .vint) = some [2, 4, 0] ∧
     decode 9 [] (.array .vint) ([2, 2, 0] ++ [2, 4, 0]) =
       some (.array [.int 1], [0, 2, 4, 0]) ∧
     decode 9 [] (.array .vint) [0, 2, 4, 0] = some (.array [], [2, 4, 0]) ∧
     Value.array [] ≠ Value.array [Value.int 2]) := by
  constructor
  · intro f reg items v vs rest hm
    obtain ⟨body, hbody, hdec⟩ := elemsRoundTrip f reg items (v :: vs) hm
    have henc0 : encodeLong 0 = [0] := by rfl
    refine ⟨body, by simp [encode, hbody, henc0], ?_⟩
    intro g hg
    obtain ⟨g', rfl⟩ : ∃ g', g = g' + 1 := ⟨g - 1, by omega⟩
    have hrd : readLong ((encodeLong (((v :: vs).length : Nat) : Int) ++ body ++ [0]) ++ rest) =
        some ((((v :: vs).length : Nat) : Int), body ++ [0] ++ rest) := by
      rw [List.append_assoc, List.append_assoc]
      rw [readLong_encodeLong]
      simp
    have hdd := hdec (0 :: rest) g' (by omega)
    simp only [List.length_cons] at hdd
    simp only [decode, hrd]
    rw [if_neg (show ¬ ((((v :: vs).length : Nat) : Int) = 0) by
          simp only [List.length_cons]; push_cast; omega)]
    rw [if_neg (show ¬ ((((v :: vs).length : Nat) : Int) < 0) by
          simp only [List.length_cons]; push_cast; omega)]
    simp only [List.length_cons, Int.toNat_natCast]
    rw [show body ++ [0] ++ rest = body ++ (0 :: rest) by simp]
    rw [hdd]
  · exact ⟨by rfl, by rfl, by rfl, by rfl, by simp⟩

/-- C10 witness: the single-element int array `[Int 1]` with trailing
stream `[7]`: the zero terminator stays in front of the trailing
stream. -/
theorem c10_array_terminator_unconsumed_witness :
    ∃ body,
      encode 3 [] (.array [Value.int 1]) (.array .vint) =
        some (encodeLong ((([Value.int 1] : List Value).length : Nat) : Int) ++ body ++ [0]) ∧
      ∀ g, 2 * 2 + 2 ≤ g →
        decode g [] (.array .vint)
            ((encodeLong ((([Value.int 1] : List Value).length : Nat) : Int) ++ body ++ [0]) ++
              [7]) =
          some (.array [Value.int 1], 0 :: [7]) :=
  c10_array_terminator_unconsumed.1 2 [] .vint (.int 1) [] [7] (by decide)

end Avrow
